import Mathlib

set_option maxHeartbeats 1000000
set_option maxRecDepth 4000

/-!
Verification of the rule-evaluation engine of `src/script.js`
(alien-prescription simulation).

The engine (`evaluateTask`, `finalizeAnswer`) works over lists of rules,
where a rule is an ANDed list of OR-groups of fact names producing one
result fact, tagged intermediate or final.  JS `Set`s are modelled as
duplicate-free lists in insertion order, JS objects used as maps
(`finalScores`, `usedCombos`) as association lists in insertion order with
overwrite-in-place semantics.
-/

namespace Script

/-- A fact is an opaque string identifier (symptom / intermediate / medicine). -/
abbrev Fact := String

/-- A rule of a treatment plan, mirroring the rule objects of `script.js`:
`{ groups, result, intermediate }`.  Groups are ANDed; the facts inside one
group are ORed. -/
structure Rule where
  groups : List (List Fact)
  result : Fact
  intermediate : Bool
deriving DecidableEq, Repr

/-- A task: a treatment plan plus the observed symptoms, as in the `tasks`
dataset of `script.js`. -/
structure Task where
  rules : List Rule
  observed : List Fact
deriving DecidableEq, Repr

/-- JS `Set.prototype.add`: append the element if it is absent. -/
def jsAdd (s : List Fact) (x : Fact) : List Fact :=
  if s.contains x then s else s ++ [x]

/-- JS `Set.prototype.delete`: remove the element. -/
def jsDelete (s : List Fact) (x : Fact) : List Fact :=
  s.erase x

/-- `rule.groups.every(group => group.some(sym => observed.includes(sym) ||
derived.has(sym)))` — the satisfaction test of the forward-chaining loop. -/
def ruleSatisfied (observed derived : List Fact) (r : Rule) : Bool :=
  r.groups.all (fun g => g.any (fun s => observed.contains s || derived.contains s))

/-- The body of `for (const rule of task.rules)` inside the `while (changed)`
loop of `evaluateTask`: an intermediate rule whose result is not yet derived
and whose groups are satisfied adds its result to `derived`. -/
def chainStep (observed : List Fact) (d : List Fact) (r : Rule) : List Fact :=
  if r.intermediate && !(d.contains r.result) && ruleSatisfied observed d r then
    d ++ [r.result]
  else d

/-- One full pass of the `while (changed)` loop over all rules. -/
def onePass (observed : List Fact) (rules : List Rule) (d : List Fact) : List Fact :=
  rules.foldl (chainStep observed) d

/-- Iterated passes of the `while (changed)` loop: stop as soon as a pass
changes nothing.  `fuel` bounds the number of passes; `rules.length + 1`
always suffices to reach the fixed point the JS loop terminates at. -/
def chainAux (observed : List Fact) (rules : List Rule) : Nat → List Fact → List Fact
  | 0, d => d
  | n + 1, d =>
    let d' := onePass observed rules d
    if d' = d then d else chainAux observed rules n d'

/-- The forward-chaining closure: the `derived` set computed by the first
half of `evaluateTask`. -/
def deriveClosure (rules : List Rule) (observed : List Fact) : List Fact :=
  chainAux observed rules (rules.length + 1) []

/-- `Array.from(currentSet).filter(sym => observed.includes(sym)).length`:
the score of the current combination. -/
def jsCount (observed cur : List Fact) : Nat :=
  (cur.filter (fun s => observed.contains s)).length

/-- The recursive `explore(idx, currentSet)` of `evaluateTask` with the shared
mutable state threaded explicitly: `currentSet` (first component, threaded
through the recursive call *before* the trailing `currentSet.delete(sym)`),
and the captured `bestCount` / `bestSet` accumulator (second component). -/
def explore (observed : List Fact) :
    List (List Fact) → List Fact → Nat → List Fact → List Fact × Nat × List Fact
  | [], cur, bestCount, bestSet =>
    if jsCount observed cur > bestCount then (cur, jsCount observed cur, cur)
    else (cur, bestCount, bestSet)
  | g :: gs, cur, bestCount, bestSet =>
    g.foldl
      (fun acc sym =>
        (jsDelete (explore observed gs (jsAdd acc.1 sym) acc.2.1 acc.2.2).1 sym,
         (explore observed gs (jsAdd acc.1 sym) acc.2.1 acc.2.2).2))
      (cur, bestCount, bestSet)

/-- `group.filter(sym => observed.includes(sym) || derived.has(sym))` —
the available facts of one group. -/
def availableSyms (observed derived : List Fact) (g : List Fact) : List Fact :=
  g.filter (fun s => observed.contains s || derived.contains s)

/-- Per final rule: `explore(0, new Set())` over the rule's available groups,
returning the final `(bestCount, bestSet)`. -/
def scoreRule (observed : List Fact) (sg : List (List Fact)) : Nat × List Fact :=
  (explore observed sg [] 0 []).2

/-- JS object property assignment `m[k] = v`: overwrite the value in place if
the key exists, otherwise append the pair. -/
def setKey {α : Type} (m : List (Fact × α)) (k : Fact) (v : α) : List (Fact × α) :=
  if m.any (fun p => p.1 == k) then
    m.map (fun p => if p.1 == k then (k, v) else p)
  else m ++ [(k, v)]

/-- The result record of `evaluateTask`:
`{ derived, finalScores, usedCombos }`. -/
structure Evaluation where
  derived : List Fact
  finalScores : List (Fact × Nat)
  usedCombos : List (Fact × List Fact)
deriving DecidableEq, Repr

/-- The body of the scoring loop of `evaluateTask` for one rule: final rules
whose groups all have at least one available fact are scored by `explore`;
all other rules leave the maps unchanged. -/
def scoreStep (observed derived : List Fact)
    (acc : List (Fact × Nat) × List (Fact × List Fact)) (r : Rule) :
    List (Fact × Nat) × List (Fact × List Fact) :=
  if r.intermediate then acc
  else
    if (r.groups.map (availableSyms observed derived)).any List.isEmpty then acc
    else
      (setKey acc.1 r.result (scoreRule observed (r.groups.map (availableSyms observed derived))).1,
       setKey acc.2 r.result (scoreRule observed (r.groups.map (availableSyms observed derived))).2)

/-- The scoring loop of `evaluateTask` over all rules. -/
def scoreLoop (observed derived : List Fact) (rules : List Rule) :
    List (Fact × Nat) × List (Fact × List Fact) :=
  rules.foldl (scoreStep observed derived) ([], [])

/-- `evaluateTask` from `script.js`: forward chaining plus best-evidence
scoring of the final medicines. -/
def evaluateTask (t : Task) : Evaluation :=
  { derived := deriveClosure t.rules t.observed
    finalScores := (scoreLoop t.observed (deriveClosure t.rules t.observed) t.rules).1
    usedCombos := (scoreLoop t.observed (deriveClosure t.rules t.observed) t.rules).2 }

/-- `Math.max(...Object.values(scores))` for the natural-number scores
(on a nonempty map this is the maximal value). -/
def maxVal (scores : List (Fact × Nat)) : Nat :=
  (scores.map Prod.snd).foldl max 0

/-- The correctness classification performed by `finalizeAnswer`:
`best` if the chosen medicine is among the top scorers, `suboptimal` if its
score is positive but not maximal, `wrong` otherwise (no answer, absent key,
or zero score).  An absent key behaves like JS `undefined > 0 === false`. -/
def classify (scores : List (Fact × Nat)) (c : Option Fact) : String :=
  match c with
  | none => "wrong"
  | some a =>
    if ((scores.filter (fun p => p.2 == maxVal scores)).map Prod.fst).contains a then "best"
    else if ((scores.lookup a).getD 0) > 0 then "suboptimal"
    else "wrong"

/-- The treatment plan shared by the four tasks of the `tasks` dataset. -/
def planRules : List Rule :=
  [ ⟨[["shortness of breath", "seizures", "brain fog", "neck pain"]], "broken bones", true⟩,
    ⟨[["brain fog", "slurred speech"], ["slurred speech", "seizures", "sleepy"], ["bloating"]],
      "fast heart rate", true⟩,
    ⟨[["seizures", "shortness of breath", "brain fog", "confusion"]], "low blood pressure", true⟩,
    ⟨[["shortness of breath", "sleepy", "aching joints"]], "stimulants", false⟩,
    ⟨[["migraine"], ["thirsty"], ["bloating"], ["low blood pressure"]], "tranquilizers", false⟩,
    ⟨[["shortness of breath", "aching joints", "jaundice", "confusion"]], "antibiotics", false⟩,
    ⟨[["broken bones", "seizures"], ["thirsty"], ["vomiting", "aching joints"]], "vitamins", false⟩,
    ⟨[["neck pain", "rash", "jaundice"], ["slurred speech", "rash"]], "laxatives", false⟩ ]

/-- The `tasks` dataset of `script.js` (ids 1–4 in order). -/
def tasks : List Task :=
  [ ⟨planRules, ["thirsty", "vomiting", "bloating", "migraine", "brain fog"]⟩,
    ⟨planRules, ["seizures", "thirsty", "vomiting", "bloating", "neck pain"]⟩,
    ⟨planRules, ["shortness of breath", "sleepy", "jaundice", "rash"]⟩,
    ⟨planRules, ["seizures", "slurred speech", "sleepy", "bloating"]⟩ ]

/-- The task with id 1. -/
def task1 : Task := ⟨planRules, ["thirsty", "vomiting", "bloating", "migraine", "brain fog"]⟩

/-- The ordered sequence of `currentSet` snapshots seen at the base case of
`explore` (one per leaf of the backtracking, in enumeration order: groups in
rule order, facts within a group in group order), together with the final
`currentSet`.  This replays exactly the `currentSet` mutations of the source,
dropping only the best-so-far bookkeeping. -/
def visitsAux : List (List Fact) → List Fact → List Fact × List (List Fact)
  | [], cur => (cur, [cur])
  | g :: gs, cur =>
    g.foldl
      (fun acc sym =>
        (jsDelete (visitsAux gs (jsAdd acc.1 sym)).1 sym,
         acc.2 ++ (visitsAux gs (jsAdd acc.1 sym)).2))
      (cur, [])

/-- The best-so-far update of `explore`:
`if (count > bestCount) { bestCount = count; bestSet = new Set(currentSet) }`. -/
def upd (observed : List Fact) (p : Nat × List Fact) (v : List Fact) : Nat × List Fact :=
  if jsCount observed v > p.1 then (jsCount observed v, v) else p

/-- Modelled from the spec (§4.2): every way of picking exactly one fact per
group, one pick per group in group order (the full Cartesian product). -/
def allPicks : List (List Fact) → List (List Fact)
  | [] => [[]]
  | g :: gs => g.flatMap (fun s => (allPicks gs).map (fun rest => s :: rest))

/-- Modelled from the spec (§4.2): the maximum, over all one-pick-per-group
combinations with duplicates collapsed into a set, of the number of distinct
picked facts that belong to `observed`. -/
def specBestScore (observed : List Fact) (sg : List (List Fact)) : Nat :=
  ((allPicks sg).map (fun p => jsCount observed p.dedup)).foldl max 0

/-- A rule set with empty `groups` sequences (one intermediate, one final). -/
def emptyGroupRules : List Rule := [⟨[], "x", true⟩, ⟨[], "y", false⟩]

/-- A final rule in which the fact `a` occurs in both groups. -/
def cartesianBugRule : Rule := ⟨[["a"], ["a", "b"]], "m", false⟩

/-- Observing both `a` and `b` under `cartesianBugRule`. -/
def cartesianBugTask : Task := ⟨[cartesianBugRule], ["a", "b"]⟩

/-- Rules where observing `t` additionally derives `s`, which is available in
the middle group of the final rule for `m`. -/
def monoBugRules : List Rule :=
  [⟨[["t"]], "s", true⟩, ⟨[["z"], ["s", "w"], ["y", "z"]], "m", false⟩]

/-- Task where `a` is only derived (from observed `b`), under
`cartesianBugRule`. -/
def comboBugTask : Task := ⟨[⟨[["b"]], "a", true⟩, cartesianBugRule], ["b"]⟩

/-- Task whose only final rule can only be satisfied by the derived fact
`d`, so that every combination has score 0. -/
def tieZeroTask : Task := ⟨[⟨[["a"]], "d", true⟩, ⟨[["d"]], "m", false⟩], ["a"]⟩

/-! ### Forward-chaining lemmas -/

theorem contains_mem {l : List Fact} {a : Fact} : l.contains a = true ↔ a ∈ l :=
  List.elem_iff

theorem ruleSatisfied_iff {obs d : List Fact} {r : Rule} :
    ruleSatisfied obs d r = true ↔ ∀ g ∈ r.groups, ∃ s ∈ g, s ∈ obs ∨ s ∈ d := by
  simp [ruleSatisfied, List.all_eq_true, List.any_eq_true, Bool.or_eq_true, contains_mem]

theorem ruleSatisfied_mono {o₁ o₂ d₁ d₂ : List Fact} {r : Rule}
    (ho : ∀ x ∈ o₁, x ∈ o₂) (hd : ∀ x ∈ d₁, x ∈ d₂)
    (h : ruleSatisfied o₁ d₁ r = true) : ruleSatisfied o₂ d₂ r = true := by
  rw [ruleSatisfied_iff] at h ⊢
  intro g hg
  obtain ⟨s, hs, hor⟩ := h g hg
  exact ⟨s, hs, hor.imp (ho s) (hd s)⟩

theorem mem_chainStep {obs d : List Fact} {r : Rule} {a : Fact} (h : a ∈ d) :
    a ∈ chainStep obs d r := by
  unfold chainStep
  split
  · exact List.mem_append_left _ h
  · exact h

theorem chainStep_cases {obs d : List Fact} {r : Rule} {x : Fact}
    (h : x ∈ chainStep obs d r) :
    x ∈ d ∨ (r.intermediate = true ∧ r.result = x ∧ x ∉ d ∧
      ruleSatisfied obs d r = true) := by
  unfold chainStep at h
  split at h
  case isTrue hc =>
    simp only [Bool.and_eq_true, Bool.not_eq_true'] at hc
    obtain ⟨⟨h1, h2⟩, h3⟩ := hc
    rcases List.mem_append.1 h with h' | h'
    · exact Or.inl h'
    · have hx : r.result = x := (List.mem_singleton.1 h').symm
      refine Or.inr ⟨h1, hx, ?_, h3⟩
      intro hmem
      rw [← hx] at hmem
      rw [contains_mem.2 hmem] at h2
      cases h2
  case isFalse => exact Or.inl h

theorem mem_foldl_chainStep {obs : List Fact} {rs : List Rule} {d : List Fact} {x : Fact}
    (h : x ∈ d) : x ∈ rs.foldl (chainStep obs) d := by
  induction rs generalizing d with
  | nil => exact h
  | cons r rs ih => exact ih (mem_chainStep h)

theorem foldl_chainStep_append (obs : List Fact) (rs : List Rule) :
    ∀ d : List Fact, ∃ e, rs.foldl (chainStep obs) d = d ++ e ∧
      ∀ x ∈ e, x ∉ d ∧ ∃ r ∈ rs, r.intermediate = true ∧ r.result = x := by
  induction rs with
  | nil => exact fun d => ⟨[], by simp⟩
  | cons r rs ih =>
    intro d
    obtain ⟨e₁, he₁, hprop₁⟩ : ∃ e₁, chainStep obs d r = d ++ e₁ ∧
        ∀ x ∈ e₁, x ∉ d ∧ r.intermediate = true ∧ r.result = x := by
      unfold chainStep
      split
      case isTrue hc =>
        simp only [Bool.and_eq_true, Bool.not_eq_true'] at hc
        obtain ⟨⟨h1, h2⟩, _⟩ := hc
        refine ⟨[r.result], rfl, ?_⟩
        intro x hx
        have hx' : x = r.result := List.mem_singleton.1 hx
        subst hx'
        refine ⟨?_, h1, rfl⟩
        intro hmem
        rw [contains_mem.2 hmem] at h2
        cases h2
      case isFalse => exact ⟨[], by simp⟩
    obtain ⟨e₂, he₂, hprop₂⟩ := ih (d ++ e₁)
    refine ⟨e₁ ++ e₂, ?_, ?_⟩
    · simp only [List.foldl_cons, he₁, he₂, List.append_assoc]
    · intro x hx
      rcases List.mem_append.1 hx with hx' | hx'
      · obtain ⟨hnd, hi, hres⟩ := hprop₁ x hx'
        exact ⟨hnd, r, List.mem_cons_self _ _, hi, hres⟩
      · obtain ⟨hnd, r', hr', hi, hres⟩ := hprop₂ x hx'
        exact ⟨fun hmem => hnd (List.mem_append_left _ hmem),
          r', List.mem_cons_of_mem _ hr', hi, hres⟩

theorem foldl_chainStep_sound (obs : List Fact) (rs : List Rule) :
    ∀ (d : List Fact) (x : Fact), x ∈ rs.foldl (chainStep obs) d →
      x ∈ d ∨ ∃ r ∈ rs, r.intermediate = true ∧ r.result = x ∧
        ruleSatisfied obs (rs.foldl (chainStep obs) d) r = true := by
  induction rs with
  | nil => exact fun d x h => Or.inl h
  | cons r rs ih =>
    intro d x h
    rw [List.foldl_cons] at h
    rcases ih (chainStep obs d r) x h with h' | ⟨r', hr', hi, hres, hsat⟩
    · rcases chainStep_cases h' with h'' | ⟨hi, hres, _, hsat⟩
      · exact Or.inl h''
      · refine Or.inr ⟨r, List.mem_cons_self _ _, hi, hres, ?_⟩
        rw [List.foldl_cons]
        exact ruleSatisfied_mono (fun y hy => hy)
          (fun y hy => mem_foldl_chainStep (mem_chainStep hy)) hsat
    · exact Or.inr ⟨r', List.mem_cons_of_mem _ hr', hi, hres, by
        rw [List.foldl_cons]; exact hsat⟩

theorem foldl_chainStep_fires (obs : List Fact) (rs : List Rule) :
    ∀ (d : List Fact) (r : Rule), r ∈ rs → r.intermediate = true →
      ruleSatisfied obs d r = true → r.result ∈ rs.foldl (chainStep obs) d := by
  induction rs with
  | nil => intro d r h; exact absurd h (List.not_mem_nil r)
  | cons r₀ rs ih =>
    intro d r hr hi hsat
    rw [List.foldl_cons]
    rcases List.mem_cons.1 hr with rfl | hr'
    · have hmem : r.result ∈ chainStep obs d r := by
        unfold chainStep
        split
        · exact List.mem_append_right _ (List.mem_singleton.2 rfl)
        case isFalse hc =>
          have hct : d.contains r.result = true := by
            cases hcc : d.contains r.result with
            | true => rfl
            | false =>
              refine absurd ?_ hc
              rw [hi, hcc, hsat]
              rfl
          exact contains_mem.1 hct
      exact mem_foldl_chainStep hmem
    · exact ih (chainStep obs d r₀) r hr' hi
        (ruleSatisfied_mono (fun y hy => hy) (fun y hy => mem_chainStep hy) hsat)

/-- The number of intermediate rules whose result is not yet derived: the
termination measure of the `while (changed)` loop. -/
def pendingCount (rules : List Rule) (d : List Fact) : Nat :=
  rules.countP (fun r => r.intermediate && !(d.contains r.result))

theorem countP_lt_of_witness {α : Type} (l : List α) (p q : α → Bool)
    (hpq : ∀ a ∈ l, q a = true → p a = true) :
    ∀ a ∈ l, p a = true → q a = false → l.countP q < l.countP p := by
  induction l with
  | nil => intro a h; exact absurd h (List.not_mem_nil a)
  | cons x l ih =>
    intro a ha hp hq
    rw [List.countP_cons, List.countP_cons]
    have hmono : l.countP q ≤ l.countP p :=
      List.countP_mono_left (fun b hb => hpq b (List.mem_cons_of_mem _ hb))
    rcases List.mem_cons.1 ha with rfl | ha'
    · rw [hp, hq]
      simpa using Nat.lt_succ_of_le hmono
    · have := ih (fun b hb => hpq b (List.mem_cons_of_mem _ hb)) a ha' hp hq
      have hx : (if q x = true then 1 else 0) ≤ (if p x = true then 1 else 0) := by
        by_cases h : q x = true
        · rw [h, hpq x (List.mem_cons_self _ _) h]
        · simp [h]
      omega

theorem onePass_progress (obs : List Fact) (rules : List Rule) (d : List Fact)
    (h : onePass obs rules d ≠ d) :
    pendingCount rules (onePass obs rules d) < pendingCount rules d := by
  obtain ⟨e, he, hprop⟩ := foldl_chainStep_append obs rules d
  have hne : e ≠ [] := by
    intro h'
    exact h (by simpa [h'] using he)
  obtain ⟨x, hx⟩ := List.exists_mem_of_ne_nil e hne
  obtain ⟨hnd, r₀, hr₀, hi₀, hres₀⟩ := hprop x hx
  have hmemd' : x ∈ onePass obs rules d := by
    unfold onePass
    rw [he]
    exact List.mem_append_right _ hx
  refine countP_lt_of_witness rules _ _ ?_ r₀ hr₀ ?_ ?_
  · intro r hr hq
    simp only [Bool.and_eq_true, Bool.not_eq_true'] at hq ⊢
    obtain ⟨hi, hnc⟩ := hq
    refine ⟨hi, ?_⟩
    cases hcc : d.contains r.result with
    | false => rfl
    | true =>
      have : r.result ∈ onePass obs rules d :=
        mem_foldl_chainStep (contains_mem.1 hcc)
      rw [contains_mem.2 this] at hnc
      cases hnc
  · simp only [Bool.and_eq_true, Bool.not_eq_true']
    refine ⟨hi₀, ?_⟩
    cases hcc : d.contains r₀.result with
    | false => rfl
    | true => exact absurd (contains_mem.1 hcc) (hres₀ ▸ hnd)
  · have hct : (onePass obs rules d).contains r₀.result = true :=
      contains_mem.2 (hres₀ ▸ hmemd')
    rw [hi₀, hct]
    rfl

theorem chainAux_fix (obs : List Fact) (rules : List Rule) :
    ∀ (n : Nat) (d : List Fact), pendingCount rules d < n →
      onePass obs rules (chainAux obs rules n d) = chainAux obs rules n d := by
  intro n
  induction n with
  | zero => intro d h; exact absurd h (Nat.not_lt_zero _)
  | succ n ih =>
    intro d h
    show onePass obs rules (if onePass obs rules d = d then d
        else chainAux obs rules n (onePass obs rules d)) =
      (if onePass obs rules d = d then d
        else chainAux obs rules n (onePass obs rules d))
    split
    case isTrue he => exact he
    case isFalse he =>
      exact ih (onePass obs rules d)
        (Nat.lt_of_lt_of_le (onePass_progress obs rules d he) (Nat.lt_succ_iff.1 h))

theorem deriveClosure_fix (rules : List Rule) (obs : List Fact) :
    onePass obs rules (deriveClosure rules obs) = deriveClosure rules obs := by
  refine chainAux_fix obs rules _ [] ?_
  exact Nat.lt_succ_of_le (List.countP_le_length _)

theorem mem_chainAux {obs : List Fact} {rules : List Rule} :
    ∀ {n : Nat} {d : List Fact} {x : Fact}, x ∈ d → x ∈ chainAux obs rules n d := by
  intro n
  induction n with
  | zero => exact fun h => h
  | succ n ih =>
    intro d x h
    show x ∈ (if onePass obs rules d = d then d else chainAux obs rules n (onePass obs rules d))
    split
    · exact h
    · exact ih (mem_foldl_chainStep h)

theorem deriveClosure_fires {rules : List Rule} {obs : List Fact} {r : Rule}
    (hr : r ∈ rules) (hi : r.intermediate = true)
    (hs : ruleSatisfied obs (deriveClosure rules obs) r = true) :
    r.result ∈ deriveClosure rules obs := by
  have h := foldl_chainStep_fires obs rules (deriveClosure rules obs) r hr hi hs
  have hfix := deriveClosure_fix rules obs
  unfold onePass at hfix
  rwa [hfix] at h

theorem chainAux_provenance (obs : List Fact) (rules : List Rule) :
    ∀ (n : Nat) (d : List Fact) (x : Fact), x ∈ chainAux obs rules n d →
      x ∈ d ∨ ∃ r ∈ rules, r.intermediate = true ∧ r.result = x ∧
        ruleSatisfied obs (chainAux obs rules n d) r = true := by
  intro n
  induction n with
  | zero => exact fun d x h => Or.inl h
  | succ n ih =>
    intro d x h
    rw [show chainAux obs rules (n + 1) d = (if onePass obs rules d = d then d
      else chainAux obs rules n (onePass obs rules d)) from rfl] at h ⊢
    split at h
    case isTrue => exact Or.inl h
    case isFalse he =>
      simp only [if_neg he]
      rcases ih (onePass obs rules d) x h with h' | ⟨r, hr, hi, hres, hsat⟩
      · rcases foldl_chainStep_sound obs rules d x h' with h'' | ⟨r, hr, hi, hres, hsat⟩
        · exact Or.inl h''
        · refine Or.inr ⟨r, hr, hi, hres, ?_⟩
          exact ruleSatisfied_mono (fun y hy => hy) (fun y hy => mem_chainAux hy) hsat
      · exact Or.inr ⟨r, hr, hi, hres, hsat⟩

theorem deriveClosure_provenance {rules : List Rule} {obs : List Fact} {x : Fact}
    (h : x ∈ deriveClosure rules obs) :
    ∃ r ∈ rules, r.intermediate = true ∧ r.result = x ∧
      ruleSatisfied obs (deriveClosure rules obs) r = true := by
  rcases chainAux_provenance obs rules (rules.length + 1) [] x h with h' | h'
  · exact absurd h' (List.not_mem_nil x)
  · exact h'

/-- C7: idempotence of derivation — re-running the forward chaining with the
already-derived facts added to the observed input yields exactly the same
derived set (as a set of facts). -/
theorem C7_idempotent (rules : List Rule) (obs : List Fact) (x : Fact) :
    x ∈ deriveClosure rules obs ↔
      x ∈ deriveClosure rules (obs ++ deriveClosure rules obs) := by
  set D := deriveClosure rules obs with hD
  set obs' := obs ++ D with hobs'
  constructor
  · intro hx
    obtain ⟨r, hr, hi, hres, hsat⟩ := deriveClosure_provenance hx
    refine hres ▸ deriveClosure_fires hr hi ?_
    rw [ruleSatisfied_iff] at hsat ⊢
    intro g hg
    obtain ⟨s, hs, hor⟩ := hsat g hg
    refine ⟨s, hs, Or.inl ?_⟩
    rcases hor with h' | h'
    · exact List.mem_append_left _ h'
    · exact List.mem_append_right _ h'
  · intro hx
    have F1 : ∀ rs : List Rule, (∀ r ∈ rs, r ∈ rules) →
        ∀ d : List Fact, (∀ y ∈ d, y ∈ D) →
        ∀ y ∈ rs.foldl (chainStep obs') d, y ∈ D := by
      intro rs
      induction rs with
      | nil => exact fun _ d hd => hd
      | cons r rs ih =>
        intro hrs d hd y hy
        rw [List.foldl_cons] at hy
        refine ih (fun r' hr' => hrs r' (List.mem_cons_of_mem _ hr')) _ ?_ y hy
        intro z hz
        rcases chainStep_cases hz with hz' | ⟨hi, hres, _, hsat⟩
        · exact hd z hz'
        · refine hres ▸ deriveClosure_fires (hrs r (List.mem_cons_self _ _)) hi ?_
          rw [ruleSatisfied_iff] at hsat ⊢
          intro g hg
          obtain ⟨s, hs, hor⟩ := hsat g hg
          refine ⟨s, hs, ?_⟩
          rcases hor with h' | h'
          · exact (List.mem_append.1 h').imp (fun h => h) (fun h => h)
          · exact Or.inr (hd s h')
    have F2 : ∀ (n : Nat) (d : List Fact), (∀ y ∈ d, y ∈ D) →
        ∀ y ∈ chainAux obs' rules n d, y ∈ D := by
      intro n
      induction n with
      | zero => exact fun d hd => hd
      | succ n ih =>
        intro d hd y hy
        rw [show chainAux obs' rules (n + 1) d = (if onePass obs' rules d = d then d
          else chainAux obs' rules n (onePass obs' rules d)) from rfl] at hy
        split at hy
        · exact hd y hy
        · exact ih (onePass obs' rules d) (F1 rules (fun _ h => h) d hd) y hy
    exact F2 (rules.length + 1) [] (fun y hy => absurd hy (List.not_mem_nil y)) x hx

/-- C1: the claim as frozen — on task 1 the code derives `broken bones` and
`low blood pressure` (both via observed `brain fog`) and does *not* derive
`fast heart rate` (its second group has no available fact), so the claimed
derived set is wrong and the conjunction is false. -/
theorem C1_counterexample :
    ¬ ("fast heart rate" ∈ (evaluateTask task1).derived ∧
       "broken bones" ∉ (evaluateTask task1).derived ∧
       "low blood pressure" ∉ (evaluateTask task1).derived ∧
       3 ≤ (((evaluateTask task1).finalScores).lookup "tranquilizers").getD 0 ∧
       ((evaluateTask task1).finalScores).lookup "stimulants" = none ∧
       ((evaluateTask task1).finalScores).lookup "antibiotics" = none ∧
       (((evaluateTask task1).finalScores).filter
         (fun p => p.2 == maxVal (evaluateTask task1).finalScores)).map Prod.fst
         = ["tranquilizers"]) := by
  decide

/-- C1 (amended): on task 1 `derived` contains `broken bones` and
`low blood pressure` but not `fast heart rate`; `finalScores` maps
`tranquilizers` to 3 (≥ 3), has no `stimulants` or `antibiotics` key, and
`tranquilizers` is the unique top scorer. -/
theorem C1_amended :
    "fast heart rate" ∉ (evaluateTask task1).derived ∧
    "broken bones" ∈ (evaluateTask task1).derived ∧
    "low blood pressure" ∈ (evaluateTask task1).derived ∧
    ((evaluateTask task1).finalScores).lookup "tranquilizers" = some 3 ∧
    ((evaluateTask task1).finalScores).lookup "stimulants" = none ∧
    ((evaluateTask task1).finalScores).lookup "antibiotics" = none ∧
    (((evaluateTask task1).finalScores).filter
      (fun p => p.2 == maxVal (evaluateTask task1).finalScores)).map Prod.fst
      = ["tranquilizers"] := by
  decide

/-- C2: the claim as frozen is false — on task 1 the recorded evidence for
`vitamins` contains the derived fact `broken bones`, which is not in the
observed set, so `usedCombos` values are not subsets of `observed`. -/
theorem C2_counterexample :
    ((evaluateTask task1).usedCombos).lookup "vitamins"
      = some ["broken bones", "thirsty", "vomiting"] ∧
    "broken bones" ∉ task1.observed := by
  decide

/-- C3: the claim as frozen is false — a rule with an empty `groups` sequence
is vacuously *satisfied* by the engine (`groups.every` over an empty array is
`true`): the intermediate empty-groups rule puts `x` into `derived`, and the
final empty-groups rule produces the key `y` in both output maps. -/
theorem C3_counterexample :
    "x" ∈ (evaluateTask ⟨emptyGroupRules, []⟩).derived ∧
    ((evaluateTask ⟨emptyGroupRules, []⟩).finalScores).lookup "y" = some 0 ∧
    ((evaluateTask ⟨emptyGroupRules, []⟩).usedCombos).lookup "y" = some [] := by
  decide

/-- C4: with `a` observed and occurring in both groups, the code scores `m`
at 1 while the specified Cartesian-product maximum over the available groups
is 2 (picking `a` then `b`): the backtracking `currentSet.delete(sym)`
removes a fact still picked by an outer group. -/
theorem C4_code_bug :
    ((evaluateTask cartesianBugTask).finalScores).lookup "m" = some 1 ∧
    specBestScore cartesianBugTask.observed
      (cartesianBugRule.groups.map
        (availableSyms cartesianBugTask.observed (evaluateTask cartesianBugTask).derived))
      = 2 := by
  decide

/-- C6: observing additionally `t` (a superset of the observed facts) makes
the score of `m` drop from 3 to 2, because the newly available derived fact
`s` opens an enumeration branch whose backtracking deletes `z` from the
shared `currentSet` while the outer group still uses it. -/
theorem C6_code_bug :
    ((["z", "w", "y"] : List Fact).all
      (fun x => (["z", "w", "y", "t"] : List Fact).contains x)) = true ∧
    ((evaluateTask ⟨monoBugRules, ["z", "w", "y"]⟩).finalScores).lookup "m" = some 3 ∧
    ((evaluateTask ⟨monoBugRules, ["z", "w", "y", "t"]⟩).finalScores).lookup "m" = some 2 := by
  decide

/-- C10: on `comboBugTask` the score of `m` is positive, yet the recorded
evidence `{b}` contains no fact of the first group `{a}` — the shared-set
backtracking deleted the pick of the first group — so the recorded set is
not a one-pick-per-group combination. -/
theorem C10_code_bug :
    ((evaluateTask comboBugTask).finalScores).lookup "m" = some 1 ∧
    ((evaluateTask comboBugTask).usedCombos).lookup "m" = some ["b"] ∧
    ((["b"] : List Fact).all (fun x => !((["a"] : List Fact).contains x))) = true := by
  decide

/-- C8: the claim as frozen is false — on `tieZeroTask` every combination
scores 0 (the only available fact is derived), the first (and only)
combination in enumeration order is `{d}`, which attains the maximum 0, yet
the recorded evidence is the initial empty set, not that combination. -/
theorem C8_counterexample :
    ((evaluateTask tieZeroTask).usedCombos).lookup "m" = some [] ∧
    (visitsAux [["d"]] []).2 = [["d"]] ∧
    ((visitsAux [["d"]] []).2.map (jsCount tieZeroTask.observed)).foldl max 0 = 0 ∧
    (visitsAux [["d"]] []).2.find? (fun v => jsCount tieZeroTask.observed v == 0)
      = some ["d"] ∧
    ([] : List Fact) ≠ ["d"] := by
  decide

/-! ### Key-set lemmas for the JS-object maps -/

theorem lookup_cons_eq {α : Type} (k k' : Fact) (v : α) (m : List (Fact × α))
    (h : k' = k) : List.lookup k' ((k, v) :: m) = some v := by
  have hb : (k' == k) = true := by subst h; exact beq_self_eq_true k'
  show (match k' == k with
    | true => some v
    | false => List.lookup k' m) = some v
  rw [hb]

theorem lookup_cons_ne {α : Type} (k k' : Fact) (v : α) (m : List (Fact × α))
    (h : ¬k' = k) : List.lookup k' ((k, v) :: m) = List.lookup k' m := by
  have hb : (k' == k) = false := by
    cases hcc : k' == k with
    | false => rfl
    | true => exact absurd (eq_of_beq hcc) h
  show (match k' == k with
    | true => some v
    | false => List.lookup k' m) = List.lookup k' m
  rw [hb]

theorem mem_keys_setKey {α : Type} (m : List (Fact × α)) (k k' : Fact) (v : α) :
    k' ∈ (setKey m k v).map Prod.fst ↔ k' = k ∨ k' ∈ m.map Prod.fst := by
  unfold setKey
  split
  case isTrue h =>
    have hk : k ∈ List.map Prod.fst m := by
      rcases List.any_eq_true.1 h with ⟨p, hp, hbeq⟩
      exact List.mem_map.2 ⟨p, hp, by simpa using hbeq⟩
    have hkeys : (m.map (fun p => if p.1 == k then (k, v) else p)).map Prod.fst
        = m.map Prod.fst := by
      rw [List.map_map]
      refine List.map_congr_left ?_
      intro p _
      by_cases hb : p.1 = k
      · simp [hb]
      · simp [hb]
    rw [hkeys]
    constructor
    · exact Or.inr
    · rintro (rfl | h')
      · exact hk
      · exact h'
  case isFalse =>
    rw [List.map_append]
    simp [or_comm]

theorem lookup_isSome_iff {α : Type} (m : List (Fact × α)) (k : Fact) :
    (∃ v, m.lookup k = some v) ↔ k ∈ m.map Prod.fst := by
  induction m with
  | nil => simp [List.lookup]
  | cons p m ih =>
    rcases p with ⟨k₀, v₀⟩
    by_cases hb : k = k₀
    · rw [lookup_cons_eq k₀ k v₀ m hb]
      simp [hb]
    · rw [lookup_cons_ne k₀ k v₀ m hb]
      rw [ih]
      simp only [List.map_cons, List.mem_cons]
      constructor
      · exact fun h => Or.inr h
      · rintro (he | h)
        · exact absurd he hb
        · exact h

theorem lookup_map_overwrite {α : Type} (k k' : Fact) (v : α) :
    ∀ (m : List (Fact × α)) {w : α},
      (m.map (fun p => if p.1 == k then (k, v) else p)).lookup k' = some w →
      w = v ∨ m.lookup k' = some w := by
  intro m
  induction m with
  | nil => intro w h; cases h
  | cons p m ih =>
    intro w h
    rw [List.map_cons] at h
    by_cases hb : p.1 = k
    · rw [if_pos (by rw [hb]; exact beq_self_eq_true k)] at h
      by_cases hb' : k' = k
      · rw [lookup_cons_eq k k' v _ hb'] at h
        exact Or.inl (Option.some_injective _ h).symm
      · rw [lookup_cons_ne k k' v _ hb'] at h
        rcases ih h with h' | h'
        · exact Or.inl h'
        · refine Or.inr ?_
          rcases p with ⟨k₀, v₀⟩
          have hbk : ¬k' = k₀ := by
            simp only at hb
            rw [hb]
            exact hb'
          rw [lookup_cons_ne k₀ k' v₀ m hbk]
          exact h'
    · rw [if_neg (by
        cases hcc : p.1 == k with
        | false => simp
        | true => exact absurd (eq_of_beq hcc) hb)] at h
      rcases p with ⟨k₀, v₀⟩
      by_cases hb' : k' = k₀
      · rw [lookup_cons_eq k₀ k' v₀ _ hb'] at h
        exact Or.inr (by rw [lookup_cons_eq k₀ k' v₀ m hb']; exact h)
      · rw [lookup_cons_ne k₀ k' v₀ _ hb'] at h
        rcases ih h with h' | h'
        · exact Or.inl h'
        · exact Or.inr (by rw [lookup_cons_ne k₀ k' v₀ m hb']; exact h')

theorem lookup_append_single {α : Type} (k k' : Fact) (v : α) :
    ∀ (m : List (Fact × α)) {w : α},
      (m ++ [(k, v)]).lookup k' = some w → w = v ∨ m.lookup k' = some w := by
  intro m
  induction m with
  | nil =>
    intro w h
    by_cases hb : k' = k
    · rw [List.nil_append, lookup_cons_eq k k' v [] hb] at h
      exact Or.inl (Option.some_injective _ h).symm
    · rw [List.nil_append, lookup_cons_ne k k' v [] hb] at h
      cases h
  | cons p m ih =>
    intro w h
    rcases p with ⟨k₀, v₀⟩
    rw [List.cons_append] at h
    by_cases hb' : k' = k₀
    · rw [lookup_cons_eq k₀ k' v₀ _ hb'] at h
      exact Or.inr (by rw [lookup_cons_eq k₀ k' v₀ m hb']; exact h)
    · rw [lookup_cons_ne k₀ k' v₀ _ hb'] at h
      rcases ih h with h' | h'
      · exact Or.inl h'
      · exact Or.inr (by rw [lookup_cons_ne k₀ k' v₀ m hb']; exact h')

theorem lookup_setKey_cases {α : Type} (m : List (Fact × α)) (k k' : Fact) (v : α) {w : α}
    (h : (setKey m k v).lookup k' = some w) : w = v ∨ m.lookup k' = some w := by
  unfold setKey at h
  split at h
  · exact lookup_map_overwrite k k' v m h
  · exact lookup_append_single k k' v m h


theorem anyIsEmpty_eq_false_iff (obs d : List Fact) (gs : List (List Fact)) :
    ((gs.map (availableSyms obs d)).any List.isEmpty = false) ↔
      ∀ g ∈ gs, ∃ s ∈ g, s ∈ obs ∨ s ∈ d := by
  constructor
  · intro h g hg
    have h' : List.isEmpty (availableSyms obs d g) = false := by
      cases hcc : List.isEmpty (availableSyms obs d g) with
      | false => rfl
      | true =>
        have : (gs.map (availableSyms obs d)).any List.isEmpty = true :=
          List.any_eq_true.2 ⟨availableSyms obs d g, List.mem_map_of_mem _ hg, hcc⟩
        rw [this] at h
        cases h
    have hne : availableSyms obs d g ≠ [] := by
      intro he
      rw [he] at h'
      cases h'
    obtain ⟨s, hs⟩ := List.exists_mem_of_ne_nil _ hne
    unfold availableSyms at hs
    have hsf := List.mem_filter.1 hs
    refine ⟨s, hsf.1, ?_⟩
    have hor := hsf.2
    simp only [Bool.or_eq_true] at hor
    exact hor.imp contains_mem.1 contains_mem.1
  · intro h
    cases hcc : (gs.map (availableSyms obs d)).any List.isEmpty with
    | false => rfl
    | true =>
      obtain ⟨l, hl, hemp⟩ := List.any_eq_true.1 hcc
      obtain ⟨g, hg, rfl⟩ := List.mem_map.1 hl
      obtain ⟨s, hs, hor⟩ := h g hg
      have : s ∈ availableSyms obs d g := by
        unfold availableSyms
        refine List.mem_filter.2 ⟨hs, ?_⟩
        rcases hor with h' | h'
        · rw [contains_mem.2 h']
          rfl
        · rw [contains_mem.2 h']
          simp
      rw [List.isEmpty_iff] at hemp
      rw [hemp] at this
      cases this

theorem exists_mem_cons_elim {P : Rule → Prop} {r : Rule} {rs : List Rule} (h : ¬P r) :
    (∃ r' ∈ r :: rs, P r') ↔ ∃ r' ∈ rs, P r' := by
  constructor
  · rintro ⟨r', hr', hp⟩
    rcases List.mem_cons.1 hr' with rfl | hr''
    · exact absurd hp h
    · exact ⟨r', hr'', hp⟩
  · rintro ⟨r', hr', hp⟩
    exact ⟨r', List.mem_cons_of_mem _ hr', hp⟩

theorem scoreLoop_keys_aux (obs d : List Fact) :
    ∀ (rs : List Rule) (acc : List (Fact × Nat) × List (Fact × List Fact)) (k : Fact),
      (k ∈ (rs.foldl (scoreStep obs d) acc).1.map Prod.fst ↔
        k ∈ acc.1.map Prod.fst ∨ ∃ r ∈ rs, r.intermediate = false ∧ r.result = k ∧
          ∀ g ∈ r.groups, ∃ s ∈ g, s ∈ obs ∨ s ∈ d) ∧
      (k ∈ (rs.foldl (scoreStep obs d) acc).2.map Prod.fst ↔
        k ∈ acc.2.map Prod.fst ∨ ∃ r ∈ rs, r.intermediate = false ∧ r.result = k ∧
          ∀ g ∈ r.groups, ∃ s ∈ g, s ∈ obs ∨ s ∈ d) := by
  intro rs
  induction rs with
  | nil =>
    intro acc k
    simp
  | cons r rs ih =>
    intro acc k
    rw [List.foldl_cons]
    by_cases hint : r.intermediate = true
    · have hstep : scoreStep obs d acc r = acc := by simp [scoreStep, hint]
      rw [hstep]
      have habs : ¬(r.intermediate = false ∧ r.result = k ∧
          ∀ g ∈ r.groups, ∃ s ∈ g, s ∈ obs ∨ s ∈ d) := by
        rintro ⟨hf, -, -⟩
        rw [hint] at hf
        cases hf
      refine ⟨?_, ?_⟩
      · rw [(ih acc k).1, exists_mem_cons_elim habs]
      · rw [(ih acc k).2, exists_mem_cons_elim habs]
    · have hintf : r.intermediate = false := by
        cases hcc : r.intermediate with
        | false => rfl
        | true => exact absurd hcc hint
      by_cases hemp : ((r.groups.map (availableSyms obs d)).any List.isEmpty) = true
      · have hstep : scoreStep obs d acc r = acc := by simp [scoreStep, hintf, hemp]
        rw [hstep]
        have habs : ¬(r.intermediate = false ∧ r.result = k ∧
            ∀ g ∈ r.groups, ∃ s ∈ g, s ∈ obs ∨ s ∈ d) := by
          rintro ⟨-, -, helig⟩
          rw [(anyIsEmpty_eq_false_iff obs d r.groups).2 helig] at hemp
          cases hemp
        refine ⟨?_, ?_⟩
        · rw [(ih acc k).1, exists_mem_cons_elim habs]
        · rw [(ih acc k).2, exists_mem_cons_elim habs]
      · have hempf : ((r.groups.map (availableSyms obs d)).any List.isEmpty) = false := by
          cases hcc : ((r.groups.map (availableSyms obs d)).any List.isEmpty) with
          | false => rfl
          | true => exact absurd hcc hemp
        have helig : ∀ g ∈ r.groups, ∃ s ∈ g, s ∈ obs ∨ s ∈ d :=
          (anyIsEmpty_eq_false_iff obs d r.groups).1 hempf
        have hstep : scoreStep obs d acc r =
            (setKey acc.1 r.result
              (scoreRule obs (r.groups.map (availableSyms obs d))).1,
             setKey acc.2 r.result
              (scoreRule obs (r.groups.map (availableSyms obs d))).2) := by
          simp [scoreStep, hintf, hempf]
        rw [hstep]
        refine ⟨?_, ?_⟩
        · rw [(ih _ k).1]
          show k ∈ (setKey acc.1 r.result _).map Prod.fst ∨ _ ↔ _
          rw [mem_keys_setKey]
          constructor
          · rintro ((rfl | h) | ⟨r', hr', hp⟩)
            · exact Or.inr ⟨r, List.mem_cons_self _ _, hintf, rfl, helig⟩
            · exact Or.inl h
            · exact Or.inr ⟨r', List.mem_cons_of_mem _ hr', hp⟩
          · rintro (h | ⟨r', hr', hp⟩)
            · exact Or.inl (Or.inr h)
            · rcases List.mem_cons.1 hr' with rfl | hr''
              · exact Or.inl (Or.inl hp.2.1.symm)
              · exact Or.inr ⟨r', hr'', hp⟩
        · rw [(ih _ k).2]
          show k ∈ (setKey acc.2 r.result _).map Prod.fst ∨ _ ↔ _
          rw [mem_keys_setKey]
          constructor
          · rintro ((rfl | h) | ⟨r', hr', hp⟩)
            · exact Or.inr ⟨r, List.mem_cons_self _ _, hintf, rfl, helig⟩
            · exact Or.inl h
            · exact Or.inr ⟨r', List.mem_cons_of_mem _ hr', hp⟩
          · rintro (h | ⟨r', hr', hp⟩)
            · exact Or.inl (Or.inr h)
            · rcases List.mem_cons.1 hr' with rfl | hr''
              · exact Or.inl (Or.inl hp.2.1.symm)
              · exact Or.inr ⟨r', hr'', hp⟩

/-- C5: a conclusion is a key of `finalScores` iff some final rule for it has
at least one available fact in every group (vacuously including empty-groups
rules), and the same holds for the used-evidence map: ineligible conclusions
are absent from both maps (the engine is total — absence is the only
signal). -/
theorem C5_eligibility (t : Task) (c : Fact) :
    ((∃ v, ((evaluateTask t).finalScores).lookup c = some v) ↔
      ∃ r ∈ t.rules, r.intermediate = false ∧ r.result = c ∧
        ∀ g ∈ r.groups, ∃ s ∈ g, s ∈ t.observed ∨ s ∈ (evaluateTask t).derived) ∧
    ((∃ s, ((evaluateTask t).usedCombos).lookup c = some s) ↔
      ∃ r ∈ t.rules, r.intermediate = false ∧ r.result = c ∧
        ∀ g ∈ r.groups, ∃ s ∈ g, s ∈ t.observed ∨ s ∈ (evaluateTask t).derived) := by
  have h := scoreLoop_keys_aux t.observed (deriveClosure t.rules t.observed)
    t.rules ([], []) c
  constructor
  · rw [lookup_isSome_iff]
    show c ∈ (t.rules.foldl
      (scoreStep t.observed (deriveClosure t.rules t.observed)) ([], [])).1.map Prod.fst ↔ _
    rw [h.1]
    simp only [List.map_nil, List.not_mem_nil, false_or]
    rfl
  · rw [lookup_isSome_iff]
    show c ∈ (t.rules.foldl
      (scoreStep t.observed (deriveClosure t.rules t.observed)) ([], [])).2.map Prod.fst ↔ _
    rw [h.2]
    simp only [List.map_nil, List.not_mem_nil, false_or]
    rfl

/-- C3 (amended): a rule with an empty `groups` sequence is *always*
satisfied by the engine (the group iteration is vacuously true): an
intermediate empty-groups rule always has its result in `derived`, and a
final empty-groups rule always produces its key in `finalScores` and in the
used-evidence map. -/
theorem C3_amended (rules : List Rule) (obs : List Fact) (res₁ res₂ : Fact)
    (h₁ : Rule.mk [] res₁ true ∈ rules) (h₂ : Rule.mk [] res₂ false ∈ rules) :
    res₁ ∈ deriveClosure rules obs ∧
    (∃ v, ((evaluateTask ⟨rules, obs⟩).finalScores).lookup res₂ = some v) ∧
    (∃ s, ((evaluateTask ⟨rules, obs⟩).usedCombos).lookup res₂ = some s) := by
  refine ⟨?_, ?_, ?_⟩
  · refine deriveClosure_fires h₁ rfl ?_
    rw [ruleSatisfied_iff]
    intro g hg
    exact absurd hg (List.not_mem_nil g)
  · rw [lookup_isSome_iff]
    have h := scoreLoop_keys_aux obs (deriveClosure rules obs) rules ([], []) res₂
    show res₂ ∈ (rules.foldl
      (scoreStep obs (deriveClosure rules obs)) ([], [])).1.map Prod.fst
    rw [h.1]
    exact Or.inr ⟨Rule.mk [] res₂ false, h₂, rfl, rfl,
      fun g hg => absurd hg (List.not_mem_nil g)⟩
  · rw [lookup_isSome_iff]
    have h := scoreLoop_keys_aux obs (deriveClosure rules obs) rules ([], []) res₂
    show res₂ ∈ (rules.foldl
      (scoreStep obs (deriveClosure rules obs)) ([], [])).2.map Prod.fst
    rw [h.2]
    exact Or.inr ⟨Rule.mk [] res₂ false, h₂, rfl, rfl,
      fun g hg => absurd hg (List.not_mem_nil g)⟩

/-- Witness for C3 (amended) on the concrete empty-groups rule set. -/
theorem C3_amended_witness :
    "x" ∈ deriveClosure emptyGroupRules [] ∧
    (∃ v, ((evaluateTask ⟨emptyGroupRules, []⟩).finalScores).lookup "y" = some v) ∧
    (∃ s, ((evaluateTask ⟨emptyGroupRules, []⟩).usedCombos).lookup "y" = some s) :=
  C3_amended emptyGroupRules [] "x" "y" (by decide) (by decide)

/-! ### Subset invariants of `explore` -/

theorem jsAdd_mem {s : List Fact} {x y : Fact} (h : y ∈ jsAdd s x) : y ∈ s ∨ y = x := by
  unfold jsAdd at h
  split at h
  · exact Or.inl h
  · rcases List.mem_append.1 h with h' | h'
    · exact Or.inl h'
    · exact Or.inr (List.mem_singleton.1 h')

theorem jsDelete_mem {s : List Fact} {x y : Fact} (h : y ∈ jsDelete s x) : y ∈ s :=
  List.mem_of_mem_erase h

theorem explore_parts_subset (obs : List Fact) :
    ∀ (gs : List (List Fact)) (cur : List Fact) (bc : Nat) (bs : List Fact),
      (∀ x ∈ (explore obs gs cur bc bs).1, x ∈ cur ∨ ∃ g ∈ gs, x ∈ g) ∧
      (∀ x ∈ (explore obs gs cur bc bs).2.2,
        x ∈ bs ∨ x ∈ cur ∨ ∃ g ∈ gs, x ∈ g) := by
  intro gs
  induction gs with
  | nil =>
    intro cur bc bs
    constructor
    · intro x hx
      unfold explore at hx
      split at hx <;> exact Or.inl hx
    · intro x hx
      unfold explore at hx
      split at hx
      · exact Or.inr (Or.inl hx)
      · exact Or.inl hx
  | cons g gs ih =>
    intro cur bc bs
    have hfold : ∀ (l : List Fact), (∀ sym ∈ l, sym ∈ g) →
        ∀ (st : List Fact × Nat × List Fact),
        ((∀ x ∈ st.1, x ∈ cur ∨ ∃ g' ∈ g :: gs, x ∈ g') ∧
         (∀ x ∈ st.2.2, x ∈ bs ∨ x ∈ cur ∨ ∃ g' ∈ g :: gs, x ∈ g')) →
        ((∀ x ∈ (l.foldl (fun acc sym =>
            (jsDelete (explore obs gs (jsAdd acc.1 sym) acc.2.1 acc.2.2).1 sym,
             (explore obs gs (jsAdd acc.1 sym) acc.2.1 acc.2.2).2)) st).1,
            x ∈ cur ∨ ∃ g' ∈ g :: gs, x ∈ g') ∧
         (∀ x ∈ (l.foldl (fun acc sym =>
            (jsDelete (explore obs gs (jsAdd acc.1 sym) acc.2.1 acc.2.2).1 sym,
             (explore obs gs (jsAdd acc.1 sym) acc.2.1 acc.2.2).2)) st).2.2,
            x ∈ bs ∨ x ∈ cur ∨ ∃ g' ∈ g :: gs, x ∈ g')) := by
      intro l
      induction l with
      | nil => exact fun _ st hst => hst
      | cons sym l ihl =>
        intro hl st hst
        rw [List.foldl_cons]
        refine ihl (fun s hs => hl s (List.mem_cons_of_mem _ hs)) _ ⟨?_, ?_⟩
        · intro x hx
          have hx' := jsDelete_mem hx
          rcases (ih (jsAdd st.1 sym) st.2.1 st.2.2).1 x hx' with h' | ⟨g', hg', hxg⟩
          · rcases jsAdd_mem h' with h'' | rfl
            · exact hst.1 x h''
            · exact Or.inr ⟨g, List.mem_cons_self _ _, hl x (List.mem_cons_self _ _)⟩
          · exact Or.inr ⟨g', List.mem_cons_of_mem _ hg', hxg⟩
        · intro x hx
          rcases (ih (jsAdd st.1 sym) st.2.1 st.2.2).2 x hx with h' | h' | ⟨g', hg', hxg⟩
          · exact hst.2 x h'
          · rcases jsAdd_mem h' with h'' | rfl
            · exact (hst.1 x h'').imp_right id |>.imp_left (fun h => h) |>.elim
                (fun h => Or.inr (Or.inl h)) (fun h => Or.inr (Or.inr h))
            · exact Or.inr (Or.inr ⟨g, List.mem_cons_self _ _, hl x (List.mem_cons_self _ _)⟩)
          · exact Or.inr (Or.inr ⟨g', List.mem_cons_of_mem _ hg', hxg⟩)
    show (∀ x ∈ (g.foldl _ (cur, bc, bs)).1, _) ∧ (∀ x ∈ (g.foldl _ (cur, bc, bs)).2.2, _)
    refine hfold g (fun s hs => hs) (cur, bc, bs) ⟨?_, ?_⟩
    · exact fun x hx => Or.inl hx
    · exact fun x hx => Or.inl hx

theorem scoreRule_snd_subset (obs d : List Fact) (gs : List (List Fact)) (x : Fact)
    (hx : x ∈ (scoreRule obs (gs.map (availableSyms obs d))).2) :
    x ∈ obs ∨ x ∈ d := by
  have h := (explore_parts_subset obs (gs.map (availableSyms obs d)) [] 0 []).2 x hx
  rcases h with h' | h' | ⟨g', hg', hxg⟩
  · exact absurd h' (List.not_mem_nil x)
  · exact absurd h' (List.not_mem_nil x)
  · obtain ⟨g₀, _, rfl⟩ := List.mem_map.1 hg'
    unfold availableSyms at hxg
    have hf := List.mem_filter.1 hxg
    have hor := hf.2
    simp only [Bool.or_eq_true] at hor
    exact hor.imp contains_mem.1 contains_mem.1

theorem scoreLoop_snd_values (obs d : List Fact) :
    ∀ (rs : List Rule) (acc : List (Fact × Nat) × List (Fact × List Fact)),
      (∀ (k : Fact) (s : List Fact), acc.2.lookup k = some s →
        ∀ x ∈ s, x ∈ obs ∨ x ∈ d) →
      ∀ (k : Fact) (s : List Fact),
        (rs.foldl (scoreStep obs d) acc).2.lookup k = some s →
        ∀ x ∈ s, x ∈ obs ∨ x ∈ d := by
  intro rs
  induction rs with
  | nil => exact fun acc hacc => hacc
  | cons r rs ih =>
    intro acc hacc k s h x hx
    rw [List.foldl_cons] at h
    refine ih (scoreStep obs d acc r) ?_ k s h x hx
    intro k' s' h' x' hx'
    unfold scoreStep at h'
    split at h'
    · exact hacc k' s' h' x' hx'
    · split at h'
      · exact hacc k' s' h' x' hx'
      · rcases lookup_setKey_cases _ _ _ _ h' with rfl | h''
        · exact scoreRule_snd_subset obs d r.groups x' hx'
        · exact hacc k' s' h'' x' hx'

/-- C2 (amended): every recorded used-evidence set is a subset of
`observed ∪ derived` — the recorded facts are available, but (contrary to
the frozen claim) not necessarily directly observed. -/
theorem C2_amended (t : Task) (c : Fact) (s : List Fact)
    (h : ((evaluateTask t).usedCombos).lookup c = some s) :
    ∀ x ∈ s, x ∈ t.observed ∨ x ∈ (evaluateTask t).derived := by
  have h' : (t.rules.foldl
      (scoreStep t.observed (deriveClosure t.rules t.observed)) ([], [])).2.lookup c
      = some s := h
  refine scoreLoop_snd_values t.observed (deriveClosure t.rules t.observed)
    t.rules ([], []) ?_ c s h'
  intro k s' h''
  cases h''

/-- Witness for C2 (amended): the vitamins evidence of task 1, whose member
`broken bones` is available only through `derived`. -/
theorem C2_amended_witness :
    "broken bones" ∈ task1.observed ∨ "broken bones" ∈ (evaluateTask task1).derived :=
  C2_amended task1 "vitamins" ["broken bones", "thirsty", "vomiting"] (by decide)
    "broken bones" (by decide)

/-! ### The enumeration order of `explore` and the best-so-far rule -/

theorem visitsAux_foldl_append (gs : List (List Fact)) :
    ∀ (g : List Fact) (cur : List Fact) (vs0 : List (List Fact)),
      g.foldl (fun acc sym =>
        (jsDelete (visitsAux gs (jsAdd acc.1 sym)).1 sym,
         acc.2 ++ (visitsAux gs (jsAdd acc.1 sym)).2)) (cur, vs0)
      = ((g.foldl (fun acc sym =>
          (jsDelete (visitsAux gs (jsAdd acc.1 sym)).1 sym,
           acc.2 ++ (visitsAux gs (jsAdd acc.1 sym)).2)) (cur, [])).1,
         vs0 ++ (g.foldl (fun acc sym =>
          (jsDelete (visitsAux gs (jsAdd acc.1 sym)).1 sym,
           acc.2 ++ (visitsAux gs (jsAdd acc.1 sym)).2)) (cur, [])).2) := by
  intro g
  induction g with
  | nil =>
    intro cur vs0
    simp
  | cons sym g ihg =>
    intro cur vs0
    show g.foldl (fun acc sym =>
        (jsDelete (visitsAux gs (jsAdd acc.1 sym)).1 sym,
         acc.2 ++ (visitsAux gs (jsAdd acc.1 sym)).2))
        (jsDelete (visitsAux gs (jsAdd cur sym)).1 sym,
         vs0 ++ (visitsAux gs (jsAdd cur sym)).2)
      = ((g.foldl (fun acc sym =>
          (jsDelete (visitsAux gs (jsAdd acc.1 sym)).1 sym,
           acc.2 ++ (visitsAux gs (jsAdd acc.1 sym)).2))
          (jsDelete (visitsAux gs (jsAdd cur sym)).1 sym,
           (visitsAux gs (jsAdd cur sym)).2)).1,
         vs0 ++ (g.foldl (fun acc sym =>
          (jsDelete (visitsAux gs (jsAdd acc.1 sym)).1 sym,
           acc.2 ++ (visitsAux gs (jsAdd acc.1 sym)).2))
          (jsDelete (visitsAux gs (jsAdd cur sym)).1 sym,
           (visitsAux gs (jsAdd cur sym)).2)).2)
    rw [ihg (jsDelete (visitsAux gs (jsAdd cur sym)).1 sym)
      (vs0 ++ (visitsAux gs (jsAdd cur sym)).2)]
    rw [ihg (jsDelete (visitsAux gs (jsAdd cur sym)).1 sym)
      ((visitsAux gs (jsAdd cur sym)).2)]
    simp [List.append_assoc]

theorem explore_cons_fold (obs : List Fact) (gs : List (List Fact))
    (hgs : ∀ (cur : List Fact) (bc : Nat) (bs : List Fact), explore obs gs cur bc bs
      = ((visitsAux gs cur).1, (visitsAux gs cur).2.foldl (upd obs) (bc, bs))) :
    ∀ (l : List Fact) (c : List Fact) (p : Nat × List Fact),
      l.foldl (fun acc sym =>
        (jsDelete (explore obs gs (jsAdd acc.1 sym) acc.2.1 acc.2.2).1 sym,
         (explore obs gs (jsAdd acc.1 sym) acc.2.1 acc.2.2).2)) (c, p)
      = ((l.foldl (fun acc sym =>
          (jsDelete (visitsAux gs (jsAdd acc.1 sym)).1 sym,
           acc.2 ++ (visitsAux gs (jsAdd acc.1 sym)).2)) (c, [])).1,
         (l.foldl (fun acc sym =>
          (jsDelete (visitsAux gs (jsAdd acc.1 sym)).1 sym,
           acc.2 ++ (visitsAux gs (jsAdd acc.1 sym)).2)) (c, [])).2.foldl (upd obs) p) := by
  intro l
  induction l with
  | nil => intro c p; rfl
  | cons sym l ihl =>
    intro c p
    show l.foldl (fun acc sym =>
        (jsDelete (explore obs gs (jsAdd acc.1 sym) acc.2.1 acc.2.2).1 sym,
         (explore obs gs (jsAdd acc.1 sym) acc.2.1 acc.2.2).2))
        (jsDelete (explore obs gs (jsAdd c sym) p.1 p.2).1 sym,
         (explore obs gs (jsAdd c sym) p.1 p.2).2)
      = ((l.foldl (fun acc sym =>
          (jsDelete (visitsAux gs (jsAdd acc.1 sym)).1 sym,
           acc.2 ++ (visitsAux gs (jsAdd acc.1 sym)).2))
          (jsDelete (visitsAux gs (jsAdd c sym)).1 sym,
           (visitsAux gs (jsAdd c sym)).2)).1,
         (l.foldl (fun acc sym =>
          (jsDelete (visitsAux gs (jsAdd acc.1 sym)).1 sym,
           acc.2 ++ (visitsAux gs (jsAdd acc.1 sym)).2))
          (jsDelete (visitsAux gs (jsAdd c sym)).1 sym,
           (visitsAux gs (jsAdd c sym)).2)).2.foldl (upd obs) p)
    rw [hgs (jsAdd c sym) p.1 p.2]
    show l.foldl (fun acc sym =>
        (jsDelete (explore obs gs (jsAdd acc.1 sym) acc.2.1 acc.2.2).1 sym,
         (explore obs gs (jsAdd acc.1 sym) acc.2.1 acc.2.2).2))
        (jsDelete (visitsAux gs (jsAdd c sym)).1 sym,
         (visitsAux gs (jsAdd c sym)).2.foldl (upd obs) (p.1, p.2))
      = _
    rw [Prod.mk.eta]
    rw [ihl (jsDelete (visitsAux gs (jsAdd c sym)).1 sym)
      ((visitsAux gs (jsAdd c sym)).2.foldl (upd obs) p)]
    rw [visitsAux_foldl_append gs l (jsDelete (visitsAux gs (jsAdd c sym)).1 sym)
      ((visitsAux gs (jsAdd c sym)).2)]
    simp [List.foldl_append]

theorem explore_eq_visits (obs : List Fact) :
    ∀ (gs : List (List Fact)) (cur : List Fact) (bc : Nat) (bs : List Fact),
      explore obs gs cur bc bs
        = ((visitsAux gs cur).1, (visitsAux gs cur).2.foldl (upd obs) (bc, bs)) := by
  intro gs
  induction gs with
  | nil =>
    intro cur bc bs
    show (if jsCount obs cur > bc then (cur, jsCount obs cur, cur) else (cur, bc, bs))
      = (cur, [cur].foldl (upd obs) (bc, bs))
    show _ = (cur, upd obs (bc, bs) cur)
    unfold upd
    by_cases h : jsCount obs cur > bc
    · rw [if_pos h, if_pos h]
    · rw [if_neg h, if_neg h]
  | cons g gs ih =>
    intro cur bc bs
    exact explore_cons_fold obs gs ih g cur (bc, bs)

theorem le_foldl_max (l : List Nat) : ∀ a : Nat, a ≤ l.foldl max a := by
  induction l with
  | nil => intro a; exact Nat.le_refl a
  | cons x l ih => intro a; exact Nat.le_trans (Nat.le_max_left a x) (ih (max a x))

theorem foldl_upd_fst (obs : List Fact) :
    ∀ (vs : List (List Fact)) (bc : Nat) (bs : List Fact),
      (vs.foldl (upd obs) (bc, bs)).1 = vs.foldl (fun a v => max a (jsCount obs v)) bc := by
  intro vs
  induction vs with
  | nil => intro bc bs; rfl
  | cons v vs ih =>
    intro bc bs
    rw [List.foldl_cons, List.foldl_cons]
    by_cases h : jsCount obs v > bc
    · rw [show upd obs (bc, bs) v = (jsCount obs v, v) from by unfold upd; rw [if_pos h]]
      rw [ih]
      congr 1
      omega
    · rw [show upd obs (bc, bs) v = (bc, bs) from by unfold upd; rw [if_neg h]]
      rw [ih]
      congr 1
      omega

theorem foldl_upd_le (obs : List Fact) (vs : List (List Fact)) (bc : Nat) (bs : List Fact) :
    bc ≤ (vs.foldl (upd obs) (bc, bs)).1 := by
  rw [foldl_upd_fst]
  induction vs generalizing bc with
  | nil => exact Nat.le_refl bc
  | cons v vs ih => exact Nat.le_trans (Nat.le_max_left bc (jsCount obs v)) (ih _)

theorem foldl_upd_snd (obs : List Fact) :
    ∀ (vs : List (List Fact)) (bc : Nat) (bs : List Fact),
      ((vs.foldl (upd obs) (bc, bs)).1 = bc → (vs.foldl (upd obs) (bc, bs)).2 = bs) ∧
      (bc < (vs.foldl (upd obs) (bc, bs)).1 →
        vs.find? (fun v => jsCount obs v == (vs.foldl (upd obs) (bc, bs)).1)
          = some (vs.foldl (upd obs) (bc, bs)).2) := by
  intro vs
  induction vs with
  | nil =>
    intro bc bs
    exact ⟨fun _ => rfl, fun h => absurd h (lt_irrefl bc)⟩
  | cons v vs ih =>
    intro bc bs
    rw [List.foldl_cons]
    by_cases h : jsCount obs v > bc
    · have hstep : upd obs (bc, bs) v = (jsCount obs v, v) := by
        unfold upd
        rw [if_pos h]
      rw [hstep]
      have hle : jsCount obs v ≤ (vs.foldl (upd obs) (jsCount obs v, v)).1 :=
        foldl_upd_le obs vs (jsCount obs v) v
      constructor
      · intro hm
        rw [hm] at hle
        omega
      · intro _
        by_cases heq : jsCount obs v = (vs.foldl (upd obs) (jsCount obs v, v)).1
        · have hsnd : (vs.foldl (upd obs) (jsCount obs v, v)).2 = v :=
            (ih (jsCount obs v) v).1 heq.symm
          rw [hsnd]
          refine List.find?_cons_of_pos _ ?_
          rw [← heq]
          exact beq_self_eq_true _
        · have hlt' : jsCount obs v < (vs.foldl (upd obs) (jsCount obs v, v)).1 :=
            Nat.lt_of_le_of_ne hle heq
          rw [List.find?_cons_of_neg _ (by simp [heq])]
          exact (ih (jsCount obs v) v).2 hlt'
    · have hstep : upd obs (bc, bs) v = (bc, bs) := by
        unfold upd
        rw [if_neg h]
      rw [hstep]
      refine ⟨(ih bc bs).1, ?_⟩
      intro hlt
      have hcnt : jsCount obs v ≤ bc := Nat.not_lt.1 h
      have hne : ¬jsCount obs v = (vs.foldl (upd obs) (bc, bs)).1 := by omega
      rw [List.find?_cons_of_neg _ (by simp [hne])]
      exact (ih bc bs).2 hlt

/-- C8 (amended): the recorded evidence of a scored rule is determined by the
code's enumeration (`visitsAux`: groups in rule order, facts in group order,
recursive backtracking): when the best score is positive, it is the *first*
snapshot in enumeration order attaining the best score (later snapshots with
an equal score never replace it); when the best score is 0 it is the empty
set, untouched since no snapshot strictly improves on the initial 0. -/
theorem C8_amended (obs : List Fact) (sg : List (List Fact)) :
    some ((scoreRule obs sg).2) =
      if (scoreRule obs sg).1 = 0 then some []
      else (visitsAux sg []).2.find? (fun v => jsCount obs v == (scoreRule obs sg).1) := by
  have h1 : scoreRule obs sg = (visitsAux sg []).2.foldl (upd obs) (0, []) := by
    unfold scoreRule
    rw [explore_eq_visits obs sg [] 0 []]
  rw [h1]
  rcases foldl_upd_snd obs (visitsAux sg []).2 0 [] with ⟨hz, hpos⟩
  by_cases h : ((visitsAux sg []).2.foldl (upd obs) (0, [])).1 = 0
  · rw [if_pos h, hz h]
  · rw [if_neg h]
    exact (hpos (Nat.pos_of_ne_zero h)).symm

/-! ### Correctness classification (`finalizeAnswer`) -/

theorem lookup_mem {α : Type} :
    ∀ (m : List (Fact × α)) (k : Fact) (v : α), m.lookup k = some v → (k, v) ∈ m := by
  intro m
  induction m with
  | nil => intro k v h; cases h
  | cons p m ih =>
    intro k v h
    rcases p with ⟨k₀, v₀⟩
    by_cases hb : k = k₀
    · rw [lookup_cons_eq k₀ k v₀ m hb] at h
      have hv : v₀ = v := Option.some_injective _ h
      rw [hb, hv]
      exact List.mem_cons_self _ _
    · rw [lookup_cons_ne k₀ k v₀ m hb] at h
      exact List.mem_cons_of_mem _ (ih k v h)

theorem lookup_of_mem_nodup {α : Type} :
    ∀ (m : List (Fact × α)) (k : Fact) (v : α),
      (k, v) ∈ m → (m.map Prod.fst).Nodup → m.lookup k = some v := by
  intro m
  induction m with
  | nil => intro k v h; cases h
  | cons p m ih =>
    intro k v h hnd
    rcases p with ⟨k₀, v₀⟩
    rw [List.map_cons, List.nodup_cons] at hnd
    rcases List.mem_cons.1 h with he | hm
    · have hk : k = k₀ := congrArg Prod.fst he
      rw [lookup_cons_eq k₀ k v₀ m hk]
      exact congrArg some (congrArg Prod.snd he).symm
    · have hk : ¬k = k₀ := by
        intro he
        subst he
        exact hnd.1 (List.mem_map.2 ⟨(k, v), hm, rfl⟩)
      rw [lookup_cons_ne k₀ k v₀ m hk]
      exact ih k v hm hnd.2

theorem mem_le_foldl_max (l : List Nat) : ∀ (a x : Nat), x ∈ l → x ≤ l.foldl max a := by
  induction l with
  | nil => intro a x h; cases h
  | cons y l ih =>
    intro a x h
    rcases List.mem_cons.1 h with rfl | h'
    · exact Nat.le_trans (Nat.le_max_right a x) (le_foldl_max l (max a x))
    · exact ih (max a y) x h'

theorem snd_le_maxVal (scores : List (Fact × Nat)) (a : Fact) (v : Nat)
    (h : (a, v) ∈ scores) : v ≤ maxVal scores := by
  unfold maxVal
  exact mem_le_foldl_max _ 0 v (List.mem_map.2 ⟨(a, v), h, rfl⟩)

theorem bestMeds_contains_iff (scores : List (Fact × Nat)) (a : Fact) :
    (((scores.filter (fun p => p.2 == maxVal scores)).map Prod.fst).contains a = true) ↔
      ∃ v, (a, v) ∈ scores ∧ v = maxVal scores := by
  rw [contains_mem]
  constructor
  · intro h
    obtain ⟨p, hp, rfl⟩ := List.mem_map.1 h
    have hf := List.mem_filter.1 hp
    refine ⟨p.2, hf.1, ?_⟩
    have := hf.2
    simpa using this
  · rintro ⟨v, hv, he⟩
    refine List.mem_map.2 ⟨(a, v), List.mem_filter.2 ⟨hv, ?_⟩, rfl⟩
    simp [he]

/-- C9: the three-way correctness grade of `finalizeAnswer` against a
nonempty score map — `best` iff the chosen conclusion is a key attaining the
maximal score, `suboptimal` iff it has a positive non-maximal score, `wrong`
in every other case (no answer given, or key absent, or score zero). -/
theorem C9_classification (scores : List (Fact × Nat)) (c : Option Fact)
    (_hne : scores ≠ []) (hnd : (scores.map Prod.fst).Nodup) :
    (classify scores c = "best" ↔
      ∃ a, c = some a ∧ scores.lookup a = some (maxVal scores)) ∧
    (classify scores c = "suboptimal" ↔
      ∃ a v, c = some a ∧ scores.lookup a = some v ∧ v ≠ maxVal scores ∧ 0 < v) ∧
    (classify scores c = "wrong" ↔
      ¬(∃ a, c = some a ∧ scores.lookup a = some (maxVal scores)) ∧
      ¬(∃ a v, c = some a ∧ scores.lookup a = some v ∧ v ≠ maxVal scores ∧ 0 < v)) := by
  cases c with
  | none =>
    have hcl : classify scores none = "wrong" := rfl
    rw [hcl]
    refine ⟨?_, ?_, ?_⟩
    · refine iff_of_false (by decide) ?_
      rintro ⟨a, h, -⟩
      cases h
    · refine iff_of_false (by decide) ?_
      rintro ⟨a, v, h, -⟩
      cases h
    · refine iff_of_true rfl ⟨?_, ?_⟩
      · rintro ⟨a, h, -⟩
        cases h
      · rintro ⟨a, v, h, -⟩
        cases h
  | some a =>
    have hcl : classify scores (some a) =
        (if ((scores.filter (fun p => p.2 == maxVal scores)).map Prod.fst).contains a
         then "best"
         else if ((scores.lookup a).getD 0) > 0 then "suboptimal"
         else "wrong") := rfl
    rw [hcl]
    by_cases hb : (((scores.filter (fun p => p.2 == maxVal scores)).map Prod.fst).contains a)
      = true
    · rw [if_pos hb]
      obtain ⟨v, hv, he⟩ := (bestMeds_contains_iff scores a).1 hb
      have hlook : scores.lookup a = some (maxVal scores) := by
        have hl := lookup_of_mem_nodup scores a v hv hnd
        rw [he] at hl
        exact hl
      refine ⟨iff_of_true rfl ⟨a, rfl, hlook⟩, ?_, ?_⟩
      · refine iff_of_false (by decide) ?_
        rintro ⟨a', w, ha', hw, hne', -⟩
        have ha'' : a' = a := (Option.some_injective _ ha').symm
        subst ha''
        rw [hlook] at hw
        exact hne' (Option.some_injective _ hw).symm
      · refine iff_of_false (by decide) ?_
        rintro ⟨h1, -⟩
        exact h1 ⟨a, rfl, hlook⟩
    · rw [if_neg hb]
      by_cases hp : ((scores.lookup a).getD 0) > 0
      · rw [if_pos hp]
        obtain ⟨v, hcc⟩ : ∃ v, scores.lookup a = some v := by
          cases hcc : scores.lookup a with
          | none => rw [hcc] at hp; cases hp
          | some v => exact ⟨v, rfl⟩
        rw [hcc] at hp
        have hvpos : 0 < v := hp
        have hvne : v ≠ maxVal scores := by
          intro he
          exact hb ((bestMeds_contains_iff scores a).2 ⟨v, lookup_mem scores a v hcc, he⟩)
        refine ⟨?_, ?_, ?_⟩
        · refine iff_of_false (by decide) ?_
          rintro ⟨a', ha', hl⟩
          have ha'' : a' = a := (Option.some_injective _ ha').symm
          subst ha''
          rw [hcc] at hl
          exact hvne (Option.some_injective _ hl)
        · exact iff_of_true rfl ⟨a, v, rfl, hcc, hvne, hvpos⟩
        · refine iff_of_false (by decide) ?_
          rintro ⟨-, h2⟩
          exact h2 ⟨a, v, rfl, hcc, hvne, hvpos⟩
      · rw [if_neg hp]
        have hnotbest : ¬∃ a', (some a : Option Fact) = some a' ∧
            scores.lookup a' = some (maxVal scores) := by
          rintro ⟨a', ha', hl⟩
          rw [(Option.some_injective _ ha').symm] at hl
          exact hb ((bestMeds_contains_iff scores a).2
            ⟨maxVal scores, lookup_mem scores a _ hl, rfl⟩)
        have hnotsub : ¬∃ a' v, (some a : Option Fact) = some a' ∧
            scores.lookup a' = some v ∧ v ≠ maxVal scores ∧ 0 < v := by
          rintro ⟨a', v, ha', hl, -, hvpos⟩
          rw [(Option.some_injective _ ha').symm] at hl
          rw [hl] at hp
          exact hp hvpos
        exact ⟨iff_of_false (by decide) hnotbest,
          iff_of_false (by decide) hnotsub,
          iff_of_true rfl ⟨hnotbest, hnotsub⟩⟩
/-- Witness for C9 on a concrete two-entry score map with a suboptimal
choice. -/
theorem C9_classification_witness :
    (classify [("a", 2), ("b", 1)] (some "b") = "best" ↔
      ∃ x, (some "b" : Option Fact) = some x ∧
        ([("a", 2), ("b", 1)] : List (Fact × Nat)).lookup x
          = some (maxVal [("a", 2), ("b", 1)])) ∧
    (classify [("a", 2), ("b", 1)] (some "b") = "suboptimal" ↔
      ∃ x v, (some "b" : Option Fact) = some x ∧
        ([("a", 2), ("b", 1)] : List (Fact × Nat)).lookup x = some v ∧
        v ≠ maxVal [("a", 2), ("b", 1)] ∧ 0 < v) ∧
    (classify [("a", 2), ("b", 1)] (some "b") = "wrong" ↔
      ¬(∃ x, (some "b" : Option Fact) = some x ∧
        ([("a", 2), ("b", 1)] : List (Fact × Nat)).lookup x
          = some (maxVal [("a", 2), ("b", 1)])) ∧
      ¬(∃ x v, (some "b" : Option Fact) = some x ∧
        ([("a", 2), ("b", 1)] : List (Fact × Nat)).lookup x = some v ∧
        v ≠ maxVal [("a", 2), ("b", 1)] ∧ 0 < v)) :=
  C9_classification [("a", 2), ("b", 1)] (some "b") (by decide) (by decide)

end Script
